import Mathlib

/-!
Shallow embedding of the emix container codec and content-cipher pipeline.

Bytes are modelled as `Nat` (with `< 256` bounds carried as hypotheses where
they matter), byte strings as `List Nat`.  External cryptographic primitives
(SHA-256, HKDF, AES-GCM, AES-XTS) are modelled as abstract function
parameters; the repository's own code — the binary layouts, the bounds
checks, the streaming loops — is embedded concretely.  Fallible Go functions
returning `([]byte, error)` become `Except EmixError`; functions whose Go
implementation can additionally panic on a slice out of range are given the
three-valued result type `GoResult`.
-/

namespace Emix

/-- Sentinel error values of the emix package, plus the two error shapes
produced inside AESGCMDecrypt (its ad-hoc short-input error and the
authentication failure propagated from the AEAD open). -/
inductive EmixError where
  | ErrNameTooShort
  | ErrNameTooLong
  | ErrInvalidEmixHeader
  | ErrInvalidEmixFileContent
  | ErrInvalidEncodedFileInfo
  | ErrCipherTextTooShort
  | ErrAuthentication
deriving DecidableEq, Repr

/-- Result of a Go computation: success, a returned error, or a runtime
panic (slice index out of range). -/
inductive GoResult (α : Type) where
  | ok : α → GoResult α
  | err : EmixError → GoResult α
  | outOfRange : GoResult α
deriving DecidableEq, Repr

/-- Sequencing of Go computations: errors and panics short-circuit. -/
def GoResult.bind {α β : Type} : GoResult α → (α → GoResult β) → GoResult β
  | .ok a, f => f a
  | .err e, _ => .err e
  | .outOfRange, _ => .outOfRange

/-- Go slice expression `data[i:j]`: panics unless `i ≤ j ≤ len(data)`. -/
def sliceGo (data : List Nat) (i j : Nat) : GoResult (List Nat) :=
  if i ≤ j ∧ j ≤ data.length then .ok ((data.drop i).take (j - i)) else .outOfRange

/-- Little-endian bytes of a value truncated to 16 bits
(`binary.LittleEndian.AppendUint16`). -/
def uint16LE (n : Nat) : List Nat := [n % 256, n / 256 % 256]

/-- Little-endian bytes of a value truncated to 32 bits
(`binary.LittleEndian.AppendUint32`). -/
def uint32LE (n : Nat) : List Nat :=
  [n % 256, n / 256 % 256, n / 65536 % 256, n / 16777216 % 256]

/-- Little-endian bytes of a value truncated to 64 bits
(`binary.LittleEndian.AppendUint64`). -/
def uint64LE (n : Nat) : List Nat :=
  [n % 256, n / 256 % 256, n / 65536 % 256, n / 16777216 % 256,
   n / 4294967296 % 256, n / 1099511627776 % 256,
   n / 281474976710656 % 256, n / 72057594037927936 % 256]

/-- Value of a little-endian byte string (`binary.LittleEndian.UintNN`). -/
def leVal (bs : List Nat) : Nat := bs.foldr (fun b acc => b + 256 * acc) 0

/-- Big-endian bytes of a value truncated to 16 bits
(`binary.BigEndian.AppendUint16`). -/
def uint16BE (n : Nat) : List Nat := [n / 256 % 256, n % 256]

/-- Value of a 2-byte big-endian field (`binary.BigEndian.Uint16`). -/
def beVal (bs : List Nat) : Nat := 256 * bs.getD 0 0 + bs.getD 1 0

def zipHeaderMagic : List Nat := [0x50, 0x4b, 0x03, 0x04]

def zipHeaderLength : Nat := 64

def emixHeaderMagic : List Nat := [0x45, 0x4d, 0x49, 0x58]

def fileNameMinLength : Nat := 1

def fileNameMaxLength : Nat := 255

def fileInfoEncodedMinLength : Nat := 2 + fileNameMinLength + 8 + 4 + 8 + 8 + 32

def fileInfoEncodedMaxLength : Nat := 2 + fileNameMaxLength + 8 + 4 + 8 + 8 + 32

def emixHeaderMinLength : Nat := 4 + 16 + 2 + 16 + 2 + fileInfoEncodedMinLength + 32

def emixHeaderMaxLength : Nat := 4 + 16 + 2 + 16 + 2 + fileInfoEncodedMaxLength + 28 + 32

/-- File metadata record.  `Name` is the byte string of the Go string;
`FileContentHash` models the `[32]byte` array (length-32 as a hypothesis). -/
structure FileInfo where
  Name : List Nat
  Size : Nat
  Mode : Nat
  CreateTime : Nat
  ModifyTime : Nat
  FileContentHash : List Nat
deriving DecidableEq, Repr

/-- Length of the serialized FileInfo, per `FileInfo.EncodedLength`. -/
def FileInfo.EncodedLength (f : FileInfo) : Nat :=
  fileInfoEncodedMinLength + f.Name.length - fileNameMinLength

/-- The byte string built by `FileInfo.MarshalBinary` once the name-length
validation has passed: nameLength(2 LE) ‖ name ‖ size(8 LE) ‖ mode(4 LE) ‖
createTime(8 LE) ‖ modifyTime(8 LE) ‖ contentHash(32). -/
def fileInfoBytes (f : FileInfo) : List Nat :=
  uint16LE f.Name.length ++ f.Name ++ uint64LE f.Size ++ uint32LE f.Mode ++
    uint64LE f.CreateTime ++ uint64LE f.ModifyTime ++ f.FileContentHash

/-- Serialize a FileInfo, rejecting names outside [1,255] bytes. -/
def FileInfo.MarshalBinary (f : FileInfo) : Except EmixError (List Nat) :=
  if f.Name.length < fileNameMinLength then .error .ErrNameTooShort
  else if f.Name.length > fileNameMaxLength then .error .ErrNameTooLong
  else .ok (fileInfoBytes f)

/-- Deserialize a FileInfo.  Mirrors the Go code's slice expressions
one-for-one: each `data[i:j]` is a `sliceGo` that can go out of range. -/
def FileInfo.UnmarshalBinary (data : List Nat) : GoResult FileInfo :=
  if data.length < fileInfoEncodedMinLength then .err .ErrInvalidEncodedFileInfo
  else
    GoResult.bind (sliceGo data 0 2) fun nlb =>
    let fileNameLength := leVal nlb
    if fileNameLength < fileNameMinLength ∨ fileNameLength > fileNameMaxLength then
      .err .ErrInvalidEncodedFileInfo
    else
      GoResult.bind (sliceGo data 2 (2 + fileNameLength)) fun name =>
      let i := 2 + fileNameLength
      GoResult.bind (sliceGo data i (i + 8)) fun sizeb =>
      GoResult.bind (sliceGo data (i + 8) (i + 12)) fun modeb =>
      GoResult.bind (sliceGo data (i + 12) (i + 20)) fun ctb =>
      GoResult.bind (sliceGo data (i + 20) (i + 28)) fun mtb =>
      GoResult.bind (sliceGo data (i + 28) (i + 60)) fun hashb =>
      .ok { Name := name, Size := leVal sizeb, Mode := leVal modeb,
            CreateTime := leVal ctb, ModifyTime := leVal mtb,
            FileContentHash := hashb }

/-- Abstract interface to the external cryptographic primitives the package
calls (crypto/sha256, x/crypto/hkdf, crypto/cipher GCM).  `gcmSeal key nonce
pt` is `aead.Seal(nil, nonce, pt, nil)`; `gcmOpen` is `aead.Open`, returning
`none` exactly when tag verification fails. -/
structure CryptoPrim where
  sha256 : List Nat → List Nat
  hkdf : List Nat → List Nat → Nat → List Nat
  gcmSeal : List Nat → List Nat → List Nat → List Nat
  gcmOpen : List Nat → List Nat → List Nat → Option (List Nat)
  gcmNonceSize : Nat

/-- ASCII bytes of the HKDF info string used for the metadata cipher key. -/
def aesgcmKeyInfo : List Nat := [97, 101, 115, 103, 101, 109, 32, 107, 101, 121]

/-- Encrypt with AES-GCM under a key derived from the 16-byte secret; the
fresh random nonce is a parameter and is prepended to the sealed bytes. -/
def AESGCMEncrypt (C : CryptoPrim) (nonce plainText key : List Nat) : List Nat :=
  nonce ++ C.gcmSeal (C.hkdf key aesgcmKeyInfo 32) nonce plainText

/-- Decrypt with AES-GCM: reject inputs shorter than the nonce, split off the
nonce, and open; a tag-verification failure surfaces as the AEAD's
authentication error. -/
def AESGCMDecrypt (C : CryptoPrim) (cipherText key : List Nat) : Except EmixError (List Nat) :=
  if cipherText.length < C.gcmNonceSize then .error .ErrCipherTextTooShort
  else
    match C.gcmOpen (C.hkdf key aesgcmKeyInfo 32) (cipherText.take C.gcmNonceSize)
        (cipherText.drop C.gcmNonceSize) with
    | some pt => .ok pt
    | none => .error .ErrAuthentication

/-- The container header.  `Password` models the `[16]byte` field. -/
structure EmixHeader where
  EncryptInfo : Bool
  EncryptData : Bool
  EmbedPassword : Bool
  Password : List Nat
  FileInfo : FileInfo
deriving DecidableEq, Repr

/-- Zero value of a Go `FileInfo`. -/
def emptyFileInfo : FileInfo :=
  { Name := [], Size := 0, Mode := 0, CreateTime := 0, ModifyTime := 0,
    FileContentHash := List.replicate 32 0 }

/-- Zero value of a Go `EmixHeader` (a fresh decode receiver). -/
def emptyEmixHeader : EmixHeader :=
  { EncryptInfo := false, EncryptData := false, EmbedPassword := false,
    Password := List.replicate 16 0, FileInfo := emptyFileInfo }

/-- Encoded header length, per `EmixHeader.EncodedLength`: metadata
encryption adds exactly 28 bytes (12-byte nonce + 16-byte tag). -/
def EmixHeader.EncodedLength (e : EmixHeader) : Nat :=
  4 + 16 + 2 + 16 + 2 + e.FileInfo.EncodedLength + 32 + (if e.EncryptInfo then 28 else 0)

/-- Serialize the header.  The 16 random filler bytes and the AES-GCM nonce
are parameters standing for the `rand.Read` outputs. -/
def EmixHeader.MarshalBinary (C : CryptoPrim) (random nonce : List Nat)
    (e : EmixHeader) : Except EmixError (List Nat) :=
  match e.FileInfo.MarshalBinary with
  | .error err => .error err
  | .ok encoded0 =>
    let mixType : List Nat :=
      [if e.EmbedPassword then 1 else 0,
       (if e.EncryptInfo then 1 else 0) ||| (if e.EncryptData then 2 else 0)]
    let pwField : List Nat := if e.EmbedPassword then e.Password else List.replicate 16 0
    let encodedFileInfo :=
      if e.EncryptInfo then AESGCMEncrypt C nonce encoded0 e.Password else encoded0
    let body := emixHeaderMagic ++ random ++ mixType ++ pwField ++
      uint16BE encodedFileInfo.length ++ encodedFileInfo
    .ok (body ++ C.sha256 body)

/-- Parse a header from a byte stream, modelling `bytes.Reader` semantics:
`io.ReadAtLeast` with a buffer of `emixHeaderMaxLength` reads
`min(len(input), emixHeaderMaxLength)` bytes.  The receiver `e` supplies the
pre-loaded `Password` used when the embed-password flag is clear. -/
def EmixHeader.UnmarshalBinaryFromReader (C : CryptoPrim) (e : EmixHeader)
    (input : List Nat) : GoResult EmixHeader :=
  if min input.length emixHeaderMaxLength < emixHeaderMinLength then
    .err .ErrInvalidEmixHeader
  else
    let buf := input.take emixHeaderMaxLength
    if buf.take 4 ≠ emixHeaderMagic then .err .ErrInvalidEmixHeader
    else
      let mixType := (buf.drop 20).take 2
      let encryptInfo := decide (0 < mixType.getD 1 0 &&& 1)
      let encryptData := decide (0 < mixType.getD 1 0 &&& 2)
      let embedPassword := decide (0 < mixType.getD 0 0 &&& 1)
      let password := if embedPassword then (buf.drop 22).take 16 else e.Password
      let encodedFileInfoLength := beVal ((buf.drop 38).take 2)
      if buf.length < 40 + encodedFileInfoLength + 32 then .err .ErrInvalidEmixHeader
      else
        let encodedFileInfo := (buf.drop 40).take encodedFileInfoLength
        let decoded : GoResult (List Nat) :=
          if encryptInfo then
            match AESGCMDecrypt C encodedFileInfo password with
            | .error err => .err err
            | .ok d => .ok d
          else .ok encodedFileInfo
        GoResult.bind decoded fun fib =>
        GoResult.bind (FileInfo.UnmarshalBinary fib) fun fi =>
        let hash := (buf.drop (40 + encodedFileInfoLength)).take 32
        let headerHash := C.sha256 (buf.take (40 + encodedFileInfoLength))
        if hash ≠ headerHash then .err .ErrInvalidEmixHeader
        else .ok { EncryptInfo := encryptInfo, EncryptData := encryptData,
                   EmbedPassword := embedPassword, Password := password,
                   FileInfo := fi }

/-- Parse a header from a byte slice (`UnmarshalBinary` wraps the reader
variant after its own minimum-length check). -/
def EmixHeader.UnmarshalBinary (C : CryptoPrim) (e : EmixHeader)
    (data : List Nat) : GoResult EmixHeader :=
  if data.length < emixHeaderMinLength then .err .ErrInvalidEmixHeader
  else EmixHeader.UnmarshalBinaryFromReader C e data

/-! Content cipher: sector-oriented AES-XTS streaming.  The `xts.Cipher` is
abstracted as a pair of functions `enc dec : sector → sectorNumber → sector`;
a reader is the list of byte chunks its successive `Read` calls return, with
end-of-stream (EOF) once the list is exhausted. -/

def XTSSectorSize : Nat := 1024 * 4

def SectorNumberStart : Nat := 1024

/-- The encrypt loop.  `plainBuf` is the reused 4096-byte read buffer: a
read of `n > 0` bytes overwrites its first `n` bytes and the stale tail is
encrypted along with them; the whole buffer is encrypted and written for
every read that returns at least one byte. -/
def encryptLoop (enc : List Nat → Nat → List Nat) :
    List (List Nat) → List Nat → Nat → List Nat
  | [], _, _ => []
  | c :: rest, plainBuf, sectorNumber =>
    if 0 < c.length then
      let newBuf := c ++ plainBuf.drop c.length
      enc newBuf sectorNumber ++ encryptLoop enc rest newBuf (sectorNumber + 1)
    else encryptLoop enc rest plainBuf sectorNumber

/-- Encrypt a content stream: the read buffer starts zeroed and the sector
number starts at `SectorNumberStart`. -/
def EncryptContent (enc : List Nat → Nat → List Nat) (chunks : List (List Nat)) : List Nat :=
  encryptLoop enc chunks (List.replicate XTSSectorSize 0) SectorNumberStart

/-- The decrypt loop, iterating `for leftSize := size; leftSize > 0;
leftSize -= 4096`.  A read of 1..4095 bytes is `ErrInvalidEmixFileContent`;
a full sector is decrypted and its first `min(4096, leftSize)` bytes
emitted; a zero-byte read leaves the sector number alone; end-of-stream
(the chunk list running out) breaks the loop and returns success. -/
def decryptLoop (dec : List Nat → Nat → List Nat) :
    List (List Nat) → Int → Nat → Except EmixError (List Nat)
  | [], _, _ => .ok []
  | c :: rest, leftSize, sectorNumber =>
    if leftSize ≤ 0 then .ok []
    else if 0 < c.length ∧ c.length < XTSSectorSize then .error .ErrInvalidEmixFileContent
    else if c.length = XTSSectorSize then
      match decryptLoop dec rest (leftSize - XTSSectorSize) (sectorNumber + 1) with
      | .error err => .error err
      | .ok out =>
        .ok ((dec c sectorNumber).take (min (XTSSectorSize : Int) leftSize).toNat ++ out)
    else decryptLoop dec rest (leftSize - XTSSectorSize) sectorNumber

/-- Decrypt a content stream of logical size `size` (an `int64`). -/
def DecryptContent (dec : List Nat → Nat → List Nat) (chunks : List (List Nat))
    (size : Int) : Except EmixError (List Nat) :=
  decryptLoop dec chunks size SectorNumberStart

/-- Successive `Read` results of a `bytes.Reader` over `data` with a
4096-byte buffer: full sectors, then one final partial chunk. -/
def chunksOf (data : List Nat) : List (List Nat) :=
  if h : data = [] then []
  else data.take XTSSectorSize :: chunksOf (data.drop XTSSectorSize)
termination_by data.length
decreasing_by
  simp only [List.length_drop, XTSSectorSize]
  have : 0 < data.length := List.length_pos.mpr h
  omega

/-- Specification-side view of a chunk stream: the sequence of full 4096-byte
plaintext sectors actually encrypted, including the stale-tail padding of the
final partial chunk. -/
def plainSectors : List (List Nat) → List Nat → List (List Nat)
  | [], _ => []
  | c :: rest, buf =>
    if 0 < c.length then
      (c ++ buf.drop c.length) :: plainSectors rest (c ++ buf.drop c.length)
    else plainSectors rest buf

/-- Specification-side view of sector encryption: each sector transformed
independently under a sector number incrementing by one per sector. -/
def encSectors (enc : List Nat → Nat → List Nat) :
    List (List Nat) → Nat → List (List Nat)
  | [], _ => []
  | p :: rest, s => enc p s :: encSectors enc rest (s + 1)

/-- Total number of bytes in a chunk list. -/
def totalLen (cs : List (List Nat)) : Nat := (cs.map List.length).sum

/-- Well-formed reader chunk sequence for a `bytes.Reader`: every chunk is
nonempty and at most one sector, and every chunk before the last is a full
sector. -/
def wfChunks : List (List Nat) → Prop
  | [] => True
  | [c] => 0 < c.length ∧ c.length ≤ XTSSectorSize
  | c :: rest => c.length = XTSSectorSize ∧ wfChunks rest

/-- The mix-type field written by `EmixHeader.MarshalBinary`. -/
def headerMixType (e : EmixHeader) : List Nat :=
  [if e.EmbedPassword then 1 else 0,
   (if e.EncryptInfo then 1 else 0) ||| (if e.EncryptData then 2 else 0)]

/-- The password field written by `EmixHeader.MarshalBinary`. -/
def headerPwField (e : EmixHeader) : List Nat :=
  if e.EmbedPassword then e.Password else List.replicate 16 0

/-- The (possibly encrypted) encoded FileInfo region written by
`EmixHeader.MarshalBinary`. -/
def headerFiBytes (C : CryptoPrim) (nonce : List Nat) (e : EmixHeader) : List Nat :=
  if e.EncryptInfo then AESGCMEncrypt C nonce (fileInfoBytes e.FileInfo) e.Password
  else fileInfoBytes e.FileInfo

/-- The header body before the trailing hash. -/
def headerBody (C : CryptoPrim) (random nonce : List Nat) (e : EmixHeader) : List Nat :=
  emixHeaderMagic ++ random ++ headerMixType e ++ headerPwField e ++
    uint16BE (headerFiBytes C nonce e).length ++ headerFiBytes C nonce e

/-- The full encoded header: body plus its unkeyed hash. -/
def headerBytes (C : CryptoPrim) (random nonce : List Nat) (e : EmixHeader) : List Nat :=
  headerBody C random nonce e ++ C.sha256 (headerBody C random nonce e)

/-- Concrete crypto primitives for closed-input evaluation: a constant hash,
a constant key derivation, and a seal that appends a 16-byte tag (whose open
inverts it). -/
def trivCrypto : CryptoPrim :=
  { sha256 := fun _ => List.replicate 32 0
  , hkdf := fun _ _ n => List.replicate n 0
  , gcmSeal := fun _ _ pt => pt ++ List.replicate 16 0
  , gcmOpen := fun _ _ ct => some (ct.take (ct.length - 16))
  , gcmNonceSize := 12 }

/-- Crypto primitives whose AEAD open always fails tag verification. -/
def failCrypto : CryptoPrim :=
  { trivCrypto with gcmOpen := fun _ _ _ => none }

/-- A small concrete FileInfo. -/
def demoFileInfo : FileInfo :=
  { Name := [97], Size := 1, Mode := 420, CreateTime := 2, ModifyTime := 3,
    FileContentHash := List.replicate 32 5 }

/-- A concrete minimal unencrypted header encoding (trailing hash is
`trivCrypto`'s constant all-zero digest). -/
def demoInput : List Nat :=
  emixHeaderMagic ++ List.replicate 16 0 ++ [0, 0] ++ List.replicate 16 0 ++
    uint16BE 63 ++ fileInfoBytes demoFileInfo ++ List.replicate 32 0

/-- The header `demoInput` parses to. -/
def demoParsed : EmixHeader :=
  { EncryptInfo := false, EncryptData := false, EmbedPassword := false,
    Password := List.replicate 16 0, FileInfo := demoFileInfo }

/-- A 63-byte buffer whose embedded nameLength field claims 255 bytes of
name: the Go decoder slices `data[2:257]` out of range. -/
def c9FailingInput : List Nat := 255 :: 0 :: List.replicate 61 0

/-! Mix-type bit lemmas. -/

/-- A concrete metadata-encrypted embedded-password header. -/
def c1DemoHeader : EmixHeader :=
  { EncryptInfo := true, EncryptData := false, EmbedPassword := true,
    Password := List.replicate 16 7, FileInfo := demoFileInfo }

@[simp] theorem GoResult.bind_ok {α β : Type} (a : α) (f : α → GoResult β) :
    GoResult.bind (.ok a) f = f a := rfl

@[simp] theorem GoResult.bind_err {α β : Type} (e : EmixError) (f : α → GoResult β) :
    GoResult.bind (.err e) f = .err e := rfl

@[simp] theorem GoResult.bind_oor {α β : Type} (f : α → GoResult β) :
    GoResult.bind (.outOfRange) f = .outOfRange := rfl

theorem leVal_uint16 (n : Nat) (h : n < 2 ^ 16) : leVal (uint16LE n) = n := by
  simp only [uint16LE, leVal, List.foldr]
  omega

theorem leVal_uint32 (n : Nat) (h : n < 2 ^ 32) : leVal (uint32LE n) = n := by
  simp only [uint32LE, leVal, List.foldr]
  omega

theorem leVal_uint64 (n : Nat) (h : n < 2 ^ 64) : leVal (uint64LE n) = n := by
  simp only [uint64LE, leVal, List.foldr]
  omega

theorem beVal_uint16BE (n : Nat) (h : n < 2 ^ 16) : beVal (uint16BE n) = n := by
  simp only [uint16BE, beVal, List.getD]
  simp
  omega

@[simp] theorem length_uint16LE (n : Nat) : (uint16LE n).length = 2 := rfl
@[simp] theorem length_uint32LE (n : Nat) : (uint32LE n).length = 4 := rfl
@[simp] theorem length_uint64LE (n : Nat) : (uint64LE n).length = 8 := rfl
@[simp] theorem length_uint16BE (n : Nat) : (uint16BE n).length = 2 := rfl

/-! Layout constants, verbatim from the source. -/

@[simp] theorem length_fileInfoBytes (f : FileInfo) (h : f.FileContentHash.length = 32) :
    (fileInfoBytes f).length = 62 + f.Name.length := by
  simp [fileInfoBytes, h]
  omega

/-- Helper: a Go slice of a list decomposed around the sliced segment. -/
theorem sliceGo_eq (l pre mid post : List Nat) (a b : Nat)
    (hl : l = pre ++ (mid ++ post)) (ha : pre.length = a) (hb : a + mid.length = b) :
    sliceGo l a b = .ok mid := by
  subst hl ha
  have hdrop : (pre ++ (mid ++ post)).drop pre.length = mid ++ post := by
    simp [List.drop_left]
  have htake : (mid ++ post).take mid.length = mid := by
    simp [List.take_left]
  rw [sliceGo, if_pos]
  · rw [hdrop]
    have : b - pre.length = mid.length := by omega
    rw [this, htake]
  · constructor
    · omega
    · simp
      omega

/-- Helper: deserializing the serialized form of a valid FileInfo returns
the record unchanged. -/
theorem fileInfo_unmarshal_fileInfoBytes (f : FileInfo)
    (h1 : fileNameMinLength ≤ f.Name.length) (h2 : f.Name.length ≤ fileNameMaxLength)
    (hsz : f.Size < 2 ^ 64) (hmd : f.Mode < 2 ^ 32)
    (hct : f.CreateTime < 2 ^ 64) (hmt : f.ModifyTime < 2 ^ 64)
    (hh : f.FileContentHash.length = 32) :
    FileInfo.UnmarshalBinary (fileInfoBytes f) = .ok f := by
  have h1' : 1 ≤ f.Name.length := h1
  have h2' : f.Name.length ≤ 255 := h2
  have hnl : ¬ (fileInfoBytes f).length < fileInfoEncodedMinLength := by
    rw [length_fileInfoBytes f hh]
    simp only [fileInfoEncodedMinLength, fileNameMinLength]
    omega
  have e1 : sliceGo (fileInfoBytes f) 0 2 = .ok (uint16LE f.Name.length) :=
    sliceGo_eq _ [] _
      (f.Name ++ (uint64LE f.Size ++ (uint32LE f.Mode ++ (uint64LE f.CreateTime ++
        (uint64LE f.ModifyTime ++ f.FileContentHash))))) _ _
      (by simp [fileInfoBytes]) rfl (by simp)
  have e2 : sliceGo (fileInfoBytes f) 2 (2 + f.Name.length) = .ok f.Name :=
    sliceGo_eq _ (uint16LE f.Name.length) _
      (uint64LE f.Size ++ (uint32LE f.Mode ++ (uint64LE f.CreateTime ++
        (uint64LE f.ModifyTime ++ f.FileContentHash)))) _ _
      (by simp [fileInfoBytes]) (by simp) rfl
  have e3 : sliceGo (fileInfoBytes f) (2 + f.Name.length) (2 + f.Name.length + 8) =
      .ok (uint64LE f.Size) :=
    sliceGo_eq _ (uint16LE f.Name.length ++ f.Name) _
      (uint32LE f.Mode ++ (uint64LE f.CreateTime ++
        (uint64LE f.ModifyTime ++ f.FileContentHash))) _ _
      (by simp [fileInfoBytes]) (by first | (simp; omega) | simp) (by simp)
  have e4 : sliceGo (fileInfoBytes f) (2 + f.Name.length + 8) (2 + f.Name.length + 12) =
      .ok (uint32LE f.Mode) :=
    sliceGo_eq _ (uint16LE f.Name.length ++ (f.Name ++ uint64LE f.Size)) _
      (uint64LE f.CreateTime ++ (uint64LE f.ModifyTime ++ f.FileContentHash)) _ _
      (by simp [fileInfoBytes]) (by first | (simp; omega) | simp) (by simp)
  have e5 : sliceGo (fileInfoBytes f) (2 + f.Name.length + 12) (2 + f.Name.length + 20) =
      .ok (uint64LE f.CreateTime) :=
    sliceGo_eq _ (uint16LE f.Name.length ++ (f.Name ++ (uint64LE f.Size ++ uint32LE f.Mode))) _
      (uint64LE f.ModifyTime ++ f.FileContentHash) _ _
      (by simp [fileInfoBytes]) (by first | (simp; omega) | simp) (by simp)
  have e6 : sliceGo (fileInfoBytes f) (2 + f.Name.length + 20) (2 + f.Name.length + 28) =
      .ok (uint64LE f.ModifyTime) :=
    sliceGo_eq _ (uint16LE f.Name.length ++ (f.Name ++ (uint64LE f.Size ++
      (uint32LE f.Mode ++ uint64LE f.CreateTime)))) _
      f.FileContentHash _ _
      (by simp [fileInfoBytes]) (by first | (simp; omega) | simp) (by simp)
  have e7 : sliceGo (fileInfoBytes f) (2 + f.Name.length + 28) (2 + f.Name.length + 60) =
      .ok f.FileContentHash :=
    sliceGo_eq _ (uint16LE f.Name.length ++ (f.Name ++ (uint64LE f.Size ++
      (uint32LE f.Mode ++ (uint64LE f.CreateTime ++ uint64LE f.ModifyTime))))) _
      [] _ _
      (by simp [fileInfoBytes]) (by first | (simp; omega) | simp) (by simp [hh])
  have hcond : ¬(f.Name.length < fileNameMinLength ∨ f.Name.length > fileNameMaxLength) := by
    simp only [fileNameMinLength, fileNameMaxLength]
    omega
  rw [FileInfo.UnmarshalBinary, if_neg hnl]
  simp only [e1, GoResult.bind_ok, leVal_uint16 f.Name.length (by omega)]
  rw [if_neg hcond]
  simp only [e2, e3, e4, e5, e6, e7, GoResult.bind_ok,
    leVal_uint64 f.Size hsz, leVal_uint32 f.Mode hmd,
    leVal_uint64 f.CreateTime hct, leVal_uint64 f.ModifyTime hmt]

theorem encryptLoop_eq (enc : List Nat → Nat → List Nat) :
    ∀ (chunks : List (List Nat)) (buf : List Nat) (s : Nat),
      encryptLoop enc chunks buf s = (encSectors enc (plainSectors chunks buf) s).flatten
  | [], buf, s => by simp [encryptLoop, plainSectors, encSectors]
  | c :: rest, buf, s => by
    by_cases hc : 0 < c.length
    · simp only [encryptLoop, plainSectors, if_pos hc, encSectors, List.flatten_cons]
      rw [encryptLoop_eq enc rest _ (s + 1)]
    · simp only [encryptLoop, plainSectors, if_neg hc]
      exact encryptLoop_eq enc rest buf s

theorem plainSectors_length :
    ∀ (chunks : List (List Nat)) (buf : List Nat), buf.length = XTSSectorSize →
      (∀ c ∈ chunks, c.length ≤ XTSSectorSize) →
      ∀ p ∈ plainSectors chunks buf, p.length = XTSSectorSize
  | [], _, _, _, p, hp => absurd hp (by simp [plainSectors])
  | c :: rest, buf, hbuf, hc, p, hp => by
    by_cases h0 : 0 < c.length
    · have hclen : c.length ≤ XTSSectorSize := hc c (by simp)
      have hnew : (c ++ buf.drop c.length).length = XTSSectorSize := by
        simp [hbuf]
        omega
      simp only [plainSectors, if_pos h0] at hp
      rcases List.mem_cons.mp hp with h | h
      · rw [h, hnew]
      · exact plainSectors_length rest _ hnew (fun d hd => hc d (by simp [hd])) p h
    · simp only [plainSectors, if_neg h0] at hp
      exact plainSectors_length rest buf hbuf (fun d hd => hc d (by simp [hd])) p hp

theorem plainSectors_count :
    ∀ (chunks : List (List Nat)) (buf : List Nat), (∀ c ∈ chunks, 0 < c.length) →
      (plainSectors chunks buf).length = chunks.length
  | [], _, _ => rfl
  | c :: rest, buf, h => by
    have h0 : 0 < c.length := h c (by simp)
    simp only [plainSectors, if_pos h0, List.length_cons]
    rw [plainSectors_count rest _ (fun d hd => h d (by simp [hd]))]

theorem wfChunks_mem :
    ∀ (chunks : List (List Nat)), wfChunks chunks →
      ∀ c ∈ chunks, 0 < c.length ∧ c.length ≤ XTSSectorSize
  | [], _, c, hc => absurd hc (by simp)
  | [c0], h, c, hc => by
    simp only [wfChunks] at h
    simp at hc
    rw [hc]
    exact h
  | c0 :: c1 :: rest, h, c, hc => by
    simp only [wfChunks] at h
    rcases List.mem_cons.mp hc with h1 | h1
    · rw [h1, h.1]
      simp [XTSSectorSize]
    · exact wfChunks_mem (c1 :: rest) h.2 c h1

theorem encSectors_count (enc : List Nat → Nat → List Nat) :
    ∀ (ss : List (List Nat)) (s : Nat), (encSectors enc ss s).length = ss.length
  | [], _ => rfl
  | p :: rest, s => by
    simp only [encSectors, List.length_cons]
    rw [encSectors_count enc rest (s + 1)]

theorem encSectors_mem_length (enc : List Nat → Nat → List Nat)
    (Henc : ∀ p k, p.length = XTSSectorSize → (enc p k).length = XTSSectorSize) :
    ∀ (ss : List (List Nat)) (s : Nat), (∀ p ∈ ss, p.length = XTSSectorSize) →
      ∀ b ∈ encSectors enc ss s, b.length = XTSSectorSize
  | [], _, _, b, hb => absurd hb (by simp [encSectors])
  | p :: rest, s, h, b, hb => by
    simp only [encSectors] at hb
    rcases List.mem_cons.mp hb with h1 | h1
    · rw [h1]
      exact Henc p s (h p (by simp))
    · exact encSectors_mem_length enc Henc rest (s + 1) (fun q hq => h q (by simp [hq])) b h1

theorem flatten_length_uniform :
    ∀ (ls : List (List Nat)) (L : Nat), (∀ b ∈ ls, b.length = L) →
      ls.flatten.length = L * ls.length
  | [], _, _ => by simp
  | b :: rest, L, h => by
    simp only [List.flatten_cons, List.length_append, List.length_cons]
    rw [h b (by simp), flatten_length_uniform rest L (fun q hq => h q (by simp [hq]))]
    ring

@[simp] theorem chunksOf_nil : chunksOf [] = [] := by
  rw [chunksOf]
  simp

theorem chunksOf_cons (data : List Nat) (h : data ≠ []) :
    chunksOf data = data.take XTSSectorSize :: chunksOf (data.drop XTSSectorSize) := by
  rw [chunksOf]
  exact dif_neg h

theorem chunksOf_flatten (data : List Nat) : (chunksOf data).flatten = data := by
  by_cases h : data = []
  · subst h
    simp
  · rw [chunksOf_cons data h, List.flatten_cons, chunksOf_flatten (data.drop XTSSectorSize)]
    exact List.take_append_drop _ _
termination_by data.length
decreasing_by
  simp only [List.length_drop, XTSSectorSize]
  have : 0 < data.length := List.length_pos.mpr h
  omega

theorem wfChunks_chunksOf (data : List Nat) : wfChunks (chunksOf data) := by
  by_cases hne : data = []
  · subst hne
    simp [wfChunks]
  · rw [chunksOf_cons data hne]
    have hpos : 0 < data.length := List.length_pos.mpr hne
    by_cases hd : data.drop XTSSectorSize = []
    · rw [hd, chunksOf_nil]
      simp only [wfChunks]
      constructor
      · simp only [List.length_take, XTSSectorSize]
        omega
      · simp only [List.length_take, XTSSectorSize]
        omega
    · obtain ⟨c, cs, hc⟩ : ∃ c cs, chunksOf (data.drop XTSSectorSize) = c :: cs := by
        rw [chunksOf_cons _ hd]
        exact ⟨_, _, rfl⟩
      have hlen : XTSSectorSize ≤ data.length := by
        by_contra h
        push_neg at h
        exact hd (List.drop_eq_nil_of_le (Nat.le_of_lt h))
      rw [hc]
      simp only [wfChunks]
      constructor
      · simp only [List.length_take]
        omega
      · rw [← hc]
        exact wfChunks_chunksOf (data.drop XTSSectorSize)
termination_by data.length
decreasing_by
  simp only [List.length_drop, XTSSectorSize]
  have : 0 < data.length := List.length_pos.mpr hne
  omega

theorem totalLen_chunksOf (data : List Nat) : totalLen (chunksOf data) = data.length := by
  have h := List.length_flatten (chunksOf data)
  rw [chunksOf_flatten data] at h
  exact h.symm

theorem chunksOf_flatten_blocks :
    ∀ (blocks : List (List Nat)), (∀ b ∈ blocks, b.length = XTSSectorSize) →
      chunksOf blocks.flatten = blocks
  | [], _ => by simp
  | b :: rest, h => by
    have hb : b.length = XTSSectorSize := h b (by simp)
    have hbne : b ++ rest.flatten ≠ [] := by
      intro hx
      rcases List.append_eq_nil.mp hx with ⟨hb0, _⟩
      rw [hb0] at hb
      simp [XTSSectorSize] at hb
    rw [List.flatten_cons, chunksOf_cons _ hbne]
    congr 1
    · rw [← hb, List.take_left]
    · rw [← hb, List.drop_left]
      exact chunksOf_flatten_blocks rest (fun q hq => h q (by simp [hq]))

theorem chunksOf_length (data : List Nat) :
    (chunksOf data).length = (data.length + 4095) / 4096 := by
  by_cases h : data = []
  · subst h
    simp
  · rw [chunksOf_cons data h, List.length_cons, chunksOf_length (data.drop XTSSectorSize)]
    simp only [List.length_drop, XTSSectorSize]
    have : 0 < data.length := List.length_pos.mpr h
    omega
termination_by data.length
decreasing_by
  simp only [List.length_drop, XTSSectorSize]
  have : 0 < data.length := List.length_pos.mpr h
  omega

/-- Round trip of the two loops over the specification-level sector stream:
decrypting the encrypted sectors of a well-formed chunk stream under the
inverse sector cipher emits exactly the original bytes. -/
theorem decryptLoop_encSectors (enc dec : List Nat → Nat → List Nat)
    (Henc : ∀ p k, p.length = XTSSectorSize → (enc p k).length = XTSSectorSize)
    (Hdec : ∀ p k, p.length = XTSSectorSize → dec (enc p k) k = p) :
    ∀ (chunks : List (List Nat)) (buf : List Nat) (s : Nat),
      buf.length = XTSSectorSize → wfChunks chunks →
      decryptLoop dec (encSectors enc (plainSectors chunks buf) s) (totalLen chunks) s
        = .ok chunks.flatten
  | [], buf, s, hbuf, hwf => by
    simp [plainSectors, encSectors, decryptLoop]
  | [c], buf, s, hbuf, hwf => by
    simp only [wfChunks] at hwf
    obtain ⟨hc0, hc1⟩ := hwf
    have hp : (c ++ buf.drop c.length).length = XTSSectorSize := by
      simp only [List.length_append, List.length_drop, hbuf]
      omega
    have htot : totalLen [c] = c.length := by simp [totalLen]
    have h1 : ¬((totalLen [c] : Int) ≤ 0) := by
      rw [htot]
      omega
    have henclen : (enc (c ++ buf.drop c.length) s).length = XTSSectorSize :=
      Henc _ s hp
    have h2 : ¬(0 < (enc (c ++ buf.drop c.length) s).length ∧
        (enc (c ++ buf.drop c.length) s).length < XTSSectorSize) := by
      rw [henclen]
      simp
    have hmin : (min (XTSSectorSize : Int) ((totalLen [c] : Nat) : Int)).toNat = c.length := by
      rw [htot]
      simp only [XTSSectorSize] at hc1 ⊢
      omega
    simp only [plainSectors, if_pos hc0, encSectors, decryptLoop, if_neg h1,
      if_neg h2, if_pos henclen, hmin, Hdec _ s hp]
    rw [List.take_left c _]
    simp
  | c :: c' :: rest, buf, s, hbuf, hwf => by
    simp only [wfChunks] at hwf
    obtain ⟨hc, hwf'⟩ := hwf
    have hdrop : buf.drop c.length = [] := by
      rw [hc, ← hbuf]
      exact List.drop_length buf
    have hc0 : 0 < c.length := by
      rw [hc]
      simp [XTSSectorSize]
    have hp : c ++ buf.drop c.length = c := by rw [hdrop, List.append_nil]
    have htot : (totalLen (c :: c' :: rest) : Int) =
        (XTSSectorSize : Int) + (totalLen (c' :: rest) : Int) := by
      simp only [totalLen, List.map_cons, List.sum_cons, hc]
      push_cast
      ring
    have htotnn : (0 : Int) ≤ (totalLen (c' :: rest) : Int) := by positivity
    have h1 : ¬((totalLen (c :: c' :: rest) : Int) ≤ 0) := by
      rw [htot]
      simp only [XTSSectorSize]
      omega
    have henclen : (enc c s).length = XTSSectorSize := Henc c s hc
    have h2 : ¬(0 < (enc c s).length ∧ (enc c s).length < XTSSectorSize) := by
      rw [henclen]
      simp
    have harg : (totalLen (c :: c' :: rest) : Int) - (XTSSectorSize : Int) =
        (totalLen (c' :: rest) : Int) := by
      rw [htot]
      ring
    have hrec := decryptLoop_encSectors enc dec Henc Hdec (c' :: rest) c (s + 1) hc hwf'
    simp only [plainSectors] at hrec
    have hmin : (min (XTSSectorSize : Int) ((totalLen (c :: c' :: rest) : Nat) : Int)).toNat =
        XTSSectorSize := by
      rw [htot]
      omega
    have htake : c.take XTSSectorSize = c := List.take_of_length_le (by rw [hc])
    simp only [plainSectors, if_pos hc0, hp, encSectors, decryptLoop, if_neg h1,
      if_neg h2, if_pos henclen, harg, hrec, Hdec c s hc, hmin, htake, List.flatten_cons]

/-! Header marshal decomposition and parse lemmas. -/

theorem dropTake_eq (l pre mid post : List Nat) (a m : Nat)
    (hl : l = pre ++ (mid ++ post)) (ha : pre.length = a) (hm : mid.length = m) :
    (l.drop a).take m = mid := by
  subst hl ha hm
  rw [List.drop_left, List.take_left]

theorem take_pre (l pre post : List Nat) (a : Nat)
    (hl : l = pre ++ post) (ha : pre.length = a) : l.take a = pre := by
  subst hl ha
  exact List.take_left pre post

theorem marshalBinary_eq (C : CryptoPrim) (random nonce : List Nat) (e : EmixHeader)
    (h1 : fileNameMinLength ≤ e.FileInfo.Name.length)
    (h2 : e.FileInfo.Name.length ≤ fileNameMaxLength) :
    EmixHeader.MarshalBinary C random nonce e = .ok (headerBytes C random nonce e) := by
  have hm : e.FileInfo.MarshalBinary = .ok (fileInfoBytes e.FileInfo) := by
    unfold FileInfo.MarshalBinary
    rw [if_neg (by omega), if_neg (by omega)]
  unfold EmixHeader.MarshalBinary headerBytes headerBody headerMixType headerPwField headerFiBytes
  rw [hm]

theorem aesgcm_roundtrip (C : CryptoPrim) (nonce pt key : List Nat)
    (hnonce : nonce.length = C.gcmNonceSize)
    (hopen : ∀ k n p, C.gcmOpen k n (C.gcmSeal k n p) = some p) :
    AESGCMDecrypt C (AESGCMEncrypt C nonce pt key) key = .ok pt := by
  unfold AESGCMEncrypt AESGCMDecrypt
  have hsplit1 : (nonce ++ C.gcmSeal (C.hkdf key aesgcmKeyInfo 32) nonce pt).take C.gcmNonceSize
      = nonce := take_pre _ nonce _ _ rfl hnonce
  have hsplit2 : (nonce ++ C.gcmSeal (C.hkdf key aesgcmKeyInfo 32) nonce pt).drop C.gcmNonceSize
      = C.gcmSeal (C.hkdf key aesgcmKeyInfo 32) nonce pt := by
    rw [← hnonce, List.drop_left]
  have hlong : ¬((nonce ++ C.gcmSeal (C.hkdf key aesgcmKeyInfo 32) nonce pt).length
      < C.gcmNonceSize) := by
    simp [hnonce]
  rw [if_neg hlong, hsplit1, hsplit2, hopen]

@[simp] theorem length_headerBody (C : CryptoPrim) (random nonce : List Nat) (e : EmixHeader)
    (hrand : random.length = 16) (hpw16 : (headerPwField e).length = 16) :
    (headerBody C random nonce e).length = 40 + (headerFiBytes C nonce e).length := by
  simp [headerBody, headerMixType, emixHeaderMagic, hrand, hpw16]
  omega

/-- Central parse lemma: feeding a well-formed header byte string to
`UnmarshalBinaryFromReader` reaches the metadata-decryption step with the
correct field values, and the trailing hash check passes. -/
theorem unmarshal_wellformed (C : CryptoPrim) (e₀ : EmixHeader)
    (random pw fi : List Nat) (m0 m1 : Nat)
    (hrand : random.length = 16) (hpw : pw.length = 16)
    (hL1 : 63 ≤ fi.length) (hL2 : fi.length ≤ 345)
    (hsha : ∀ bs : List Nat, (C.sha256 bs).length = 32) :
    EmixHeader.UnmarshalBinaryFromReader C e₀
      (emixHeaderMagic ++ random ++ [m0, m1] ++ pw ++ uint16BE fi.length ++ fi
        ++ C.sha256 (emixHeaderMagic ++ random ++ [m0, m1] ++ pw ++ uint16BE fi.length ++ fi))
      = GoResult.bind
          (if decide (0 < m1 &&& 1) then
            match AESGCMDecrypt C fi (if decide (0 < m0 &&& 1) then pw else e₀.Password) with
            | .error err => .err err
            | .ok d => .ok d
           else .ok fi) fun fib =>
        GoResult.bind (FileInfo.UnmarshalBinary fib) fun fi2 =>
        .ok { EncryptInfo := decide (0 < m1 &&& 1), EncryptData := decide (0 < m1 &&& 2),
              EmbedPassword := decide (0 < m0 &&& 1),
              Password := if decide (0 < m0 &&& 1) then pw else e₀.Password,
              FileInfo := fi2 } := by
  set body := emixHeaderMagic ++ random ++ [m0, m1] ++ pw ++ uint16BE fi.length ++ fi with hbody
  set bs := body ++ C.sha256 body with hbs
  have hbodylen : body.length = 40 + fi.length := by
    simp [hbody, emixHeaderMagic, hrand, hpw]
    omega
  have hbslen : bs.length = 72 + fi.length := by
    simp [hbs, hbodylen, hsha body]
    omega
  have hbsle : bs.length ≤ emixHeaderMaxLength := by
    rw [hbslen]
    simp [emixHeaderMaxLength, fileInfoEncodedMaxLength, fileNameMaxLength]
    omega
  have hmin : ¬(min bs.length emixHeaderMaxLength < emixHeaderMinLength) := by
    rw [hbslen]
    simp [emixHeaderMaxLength, emixHeaderMinLength, fileInfoEncodedMaxLength,
      fileInfoEncodedMinLength, fileNameMaxLength, fileNameMinLength]
    omega
  have hbuf : bs.take emixHeaderMaxLength = bs := List.take_of_length_le hbsle
  have hmagic : bs.take 4 = emixHeaderMagic :=
    take_pre _ emixHeaderMagic
      (random ++ ([m0, m1] ++ (pw ++ (uint16BE fi.length ++ (fi ++ C.sha256 body))))) 4
      (by simp [hbs, hbody]) rfl
  have hmix : (bs.drop 20).take 2 = [m0, m1] :=
    dropTake_eq _ (emixHeaderMagic ++ random) [m0, m1]
      (pw ++ (uint16BE fi.length ++ (fi ++ C.sha256 body))) 20 2
      (by simp [hbs, hbody]) (by simp [emixHeaderMagic, hrand]) rfl
  have hpwslice : (bs.drop 22).take 16 = pw :=
    dropTake_eq _ (emixHeaderMagic ++ (random ++ [m0, m1])) pw
      (uint16BE fi.length ++ (fi ++ C.sha256 body)) 22 16
      (by simp [hbs, hbody]) (by simp [emixHeaderMagic, hrand]) hpw
  have hlenslice : (bs.drop 38).take 2 = uint16BE fi.length :=
    dropTake_eq _ (emixHeaderMagic ++ (random ++ ([m0, m1] ++ pw))) (uint16BE fi.length)
      (fi ++ C.sha256 body) 38 2
      (by simp [hbs, hbody]) (by simp [emixHeaderMagic, hrand, hpw]) rfl
  have hbe : beVal (uint16BE fi.length) = fi.length := beVal_uint16BE _ (by omega)
  have hlencheck : ¬(bs.length < 40 + fi.length + 32) := by
    rw [hbslen]
    omega
  have hfislice : (bs.drop 40).take fi.length = fi :=
    dropTake_eq _ (emixHeaderMagic ++ (random ++ ([m0, m1] ++ (pw ++ uint16BE fi.length)))) fi
      (C.sha256 body) 40 fi.length
      (by simp [hbs, hbody]) (by simp [emixHeaderMagic, hrand, hpw]) rfl
  have hhashslice : (bs.drop (40 + fi.length)).take 32 = C.sha256 body :=
    dropTake_eq _ body (C.sha256 body) [] (40 + fi.length) 32
      (by simp [hbs]) hbodylen (hsha body)
  have hbodyslice : bs.take (40 + fi.length) = body :=
    take_pre _ body (C.sha256 body) (40 + fi.length) rfl hbodylen
  have hmagicok : ¬(bs.take 4 ≠ emixHeaderMagic) := by
    rw [hmagic]
    simp
  rw [EmixHeader.UnmarshalBinaryFromReader]
  rw [if_neg hmin]
  simp only [hbuf, hmix, hpwslice, hlenslice, hfislice, hhashslice, hbodyslice, hbe]
  rw [if_neg hmagicok, if_neg hlencheck]
  have hfalse : (C.sha256 body ≠ C.sha256 body) = False := by simp
  simp only [List.getD_cons_zero, List.getD_cons_succ, hfalse, if_false]

/-! Concrete data used to exercise the theorems on closed inputs. -/

theorem mixbit_encInfo (ei ed : Bool) :
    decide (0 < ((if ei then 1 else 0) ||| (if ed then 2 else 0) : Nat) &&& 1) = ei := by
  cases ei <;> cases ed <;> rfl

theorem mixbit_encData (ei ed : Bool) :
    decide (0 < ((if ei then 1 else 0) ||| (if ed then 2 else 0) : Nat) &&& 2) = ed := by
  cases ei <;> cases ed <;> rfl

theorem mixbit_embed (ep : Bool) :
    decide (0 < ((if ep then 1 else 0 : Nat)) &&& 1) = ep := by
  cases ep <;> rfl

/-! Claims. -/

/-- C5: for every FileRecord whose name length is within [1,255] (and whose
numeric fields fit their wire widths, with a 32-byte content hash), encoding
succeeds and decoding the encoded bytes yields the record unchanged — name,
size, mode, both timestamps and content hash all preserved. -/
theorem C5_fileRecord_roundtrip (f : FileInfo)
    (h1 : 1 ≤ f.Name.length) (h2 : f.Name.length ≤ 255)
    (hsz : f.Size < 2 ^ 64) (hmd : f.Mode < 2 ^ 32)
    (hct : f.CreateTime < 2 ^ 64) (hmt : f.ModifyTime < 2 ^ 64)
    (hh : f.FileContentHash.length = 32) :
    f.MarshalBinary = .ok (fileInfoBytes f) ∧
    FileInfo.UnmarshalBinary (fileInfoBytes f) = .ok f := by
  have hA : ¬(f.Name.length < fileNameMinLength) := by
    simp only [fileNameMinLength]
    omega
  have hB : ¬(f.Name.length > fileNameMaxLength) := by
    simp only [fileNameMaxLength]
    omega
  constructor
  · unfold FileInfo.MarshalBinary
    rw [if_neg hA, if_neg hB]
  · exact fileInfo_unmarshal_fileInfoBytes f (by simpa [fileNameMinLength] using h1)
      (by simpa [fileNameMaxLength] using h2) hsz hmd hct hmt hh

/-- Witness for C5 at a concrete record. -/
theorem C5_witness :
    demoFileInfo.MarshalBinary = .ok (fileInfoBytes demoFileInfo) ∧
    FileInfo.UnmarshalBinary (fileInfoBytes demoFileInfo) = .ok demoFileInfo :=
  C5_fileRecord_roundtrip demoFileInfo (by decide) (by decide) (by decide) (by decide)
    (by decide) (by decide) (by decide)

/-- C8: encoding a FileRecord fails with the validation errors exactly when
the name length is outside [1,255] (too-short below 1, too-long above 255,
success inside the bounds), and decoding rejects any sufficiently long
buffer whose embedded nameLength field lies outside [1,255]. -/
theorem C8_name_bounds :
    (∀ f : FileInfo, f.Name.length < 1 → f.MarshalBinary = .error .ErrNameTooShort) ∧
    (∀ f : FileInfo, 255 < f.Name.length → f.MarshalBinary = .error .ErrNameTooLong) ∧
    (∀ f : FileInfo, 1 ≤ f.Name.length → f.Name.length ≤ 255 →
      f.MarshalBinary = .ok (fileInfoBytes f)) ∧
    (∀ data : List Nat, fileInfoEncodedMinLength ≤ data.length →
      (leVal (data.take 2) < 1 ∨ 255 < leVal (data.take 2)) →
      FileInfo.UnmarshalBinary data = .err .ErrInvalidEncodedFileInfo) := by
  refine ⟨?_, ?_, ?_, ?_⟩
  · intro f h
    unfold FileInfo.MarshalBinary
    rw [if_pos (by simp only [fileNameMinLength]; omega)]
  · intro f h
    unfold FileInfo.MarshalBinary
    rw [if_neg (by simp only [fileNameMinLength]; omega),
      if_pos (by simp only [fileNameMaxLength]; omega)]
  · intro f h1 h2
    unfold FileInfo.MarshalBinary
    rw [if_neg (by simp only [fileNameMinLength]; omega),
      if_neg (by simp only [fileNameMaxLength]; omega)]
  · intro data hlen hout
    have h2le : 2 ≤ data.length := by
      simp only [fileInfoEncodedMinLength, fileNameMinLength] at hlen
      omega
    have hs : sliceGo data 0 2 = .ok (data.take 2) := by
      unfold sliceGo
      rw [if_pos (And.intro (by omega) h2le)]
      simp
    have hnotshort : ¬(data.length < fileInfoEncodedMinLength) := by omega
    have hbad : leVal (data.take 2) < fileNameMinLength ∨
        fileNameMaxLength < leVal (data.take 2) := by
      simp only [fileNameMinLength, fileNameMaxLength]
      omega
    unfold FileInfo.UnmarshalBinary
    rw [if_neg hnotshort, hs, GoResult.bind_ok]
    rw [if_pos hbad]

set_option maxRecDepth 8000 in
/-- Witness for C8: a 0-byte and a 256-byte name are rejected, a 1-byte and
a 255-byte name encode, and a decode with embedded nameLength 0 is
rejected. -/
theorem C8_witness :
    ({ emptyFileInfo with Name := [] } : FileInfo).MarshalBinary = .error .ErrNameTooShort ∧
    ({ emptyFileInfo with Name := List.replicate 256 97 } : FileInfo).MarshalBinary
      = .error .ErrNameTooLong ∧
    ({ emptyFileInfo with Name := [97] } : FileInfo).MarshalBinary
      = .ok (fileInfoBytes { emptyFileInfo with Name := [97] }) ∧
    ({ emptyFileInfo with Name := List.replicate 255 97 } : FileInfo).MarshalBinary
      = .ok (fileInfoBytes { emptyFileInfo with Name := List.replicate 255 97 }) ∧
    FileInfo.UnmarshalBinary (0 :: 0 :: List.replicate 61 0)
      = .err .ErrInvalidEncodedFileInfo :=
  ⟨C8_name_bounds.1 _ (by decide),
   C8_name_bounds.2.1 _ (by decide),
   C8_name_bounds.2.2.1 _ (by decide) (by decide),
   C8_name_bounds.2.2.1 _ (by decide) (by decide),
   C8_name_bounds.2.2.2 _ (by decide) (by decide)⟩

/-- C9: `FileInfo.UnmarshalBinary` is not total over arbitrary buffers: on
a 63-byte buffer whose embedded nameLength is 255 the Go code slices
`data[2:257]` past the end of the buffer and panics. -/
theorem C9_unmarshal_out_of_range :
    FileInfo.UnmarshalBinary c9FailingInput = .outOfRange ∧
    c9FailingInput.length = fileInfoEncodedMinLength := by
  constructor <;> decide

/-- C7: metadata decryption rejects every input shorter than the nonce size
with an error (rather than truncating), and whenever the AEAD open reports a
tag-verification failure — wrong key or tampered ciphertext — the result is
exactly the propagated authentication error, not an ad-hoc one. -/
theorem C7_metadata_decrypt_errors (C : CryptoPrim) (ct key : List Nat) :
    (ct.length < C.gcmNonceSize → AESGCMDecrypt C ct key = .error .ErrCipherTextTooShort) ∧
    (C.gcmNonceSize ≤ ct.length →
      C.gcmOpen (C.hkdf key aesgcmKeyInfo 32) (ct.take C.gcmNonceSize)
        (ct.drop C.gcmNonceSize) = none →
      AESGCMDecrypt C ct key = .error .ErrAuthentication) := by
  constructor
  · intro h
    unfold AESGCMDecrypt
    rw [if_pos h]
  · intro h1 h2
    unfold AESGCMDecrypt
    rw [if_neg (by omega), h2]

/-- Witness for C7: a 3-byte input is too short for the 12-byte nonce, and
a failing tag verification surfaces as the authentication error. -/
theorem C7_witness :
    AESGCMDecrypt trivCrypto [0, 0, 0] (List.replicate 16 0)
      = .error .ErrCipherTextTooShort ∧
    AESGCMDecrypt failCrypto (List.replicate 12 0) (List.replicate 16 0)
      = .error .ErrAuthentication :=
  ⟨(C7_metadata_decrypt_errors trivCrypto [0, 0, 0] (List.replicate 16 0)).1 (by decide),
   (C7_metadata_decrypt_errors failCrypto (List.replicate 12 0) (List.replicate 16 0)).2
     (by decide) rfl⟩

/-- Helper: a partial (1..4095-byte) read while logical bytes remain makes
the decrypt loop fail with the content format error. -/
theorem decryptLoop_partial (dec : List Nat → Nat → List Nat) :
    ∀ (pre : List (List Nat)) (c : List Nat) (rest : List (List Nat)) (n : Int) (s : Nat),
      (∀ p ∈ pre, p.length = XTSSectorSize) → 0 < c.length → c.length < XTSSectorSize →
      (XTSSectorSize : Int) * pre.length < n →
      decryptLoop dec (pre ++ c :: rest) n s = .error .ErrInvalidEmixFileContent
  | [], c, rest, n, s, _, h0, h1, hn => by
    have hn0 : ¬(n ≤ 0) := by
      simp at hn
      omega
    simp only [List.nil_append, decryptLoop]
    rw [if_neg hn0, if_pos (And.intro h0 h1)]
  | p :: pre, c, rest, n, s, hpre, h0, h1, hn => by
    have hp : p.length = XTSSectorSize := hpre p (by simp)
    have hn' : (XTSSectorSize : Int) * pre.length < n - XTSSectorSize := by
      simp only [List.length_cons] at hn
      push_cast at hn ⊢
      simp only [XTSSectorSize] at hn ⊢
      omega
    have hn0 : ¬(n ≤ 0) := by
      have : (0 : Int) ≤ (XTSSectorSize : Int) * pre.length := by positivity
      simp only [XTSSectorSize] at hn' this ⊢
      omega
    have hnp : ¬(0 < p.length ∧ p.length < XTSSectorSize) := by
      rw [hp]
      simp
    have hrec := decryptLoop_partial dec pre c rest (n - XTSSectorSize) (s + 1)
      (fun q hq => hpre q (by simp [hq])) h0 h1 hn'
    simp only [List.cons_append, decryptLoop]
    rw [if_neg hn0, if_neg hnp, if_pos hp]
    simp only [List.append_eq]
    rw [hrec]

/-- C6: during content decryption with logical bytes remaining, a read
returning strictly between 1 and 4095 bytes fails with the invalid-content
format error, never processing the partial sector. -/
theorem C6_partial_sector_error (dec : List Nat → Nat → List Nat)
    (pre : List (List Nat)) (c : List Nat) (rest : List (List Nat)) (n : Int)
    (hpre : ∀ p ∈ pre, p.length = XTSSectorSize)
    (hc0 : 0 < c.length) (hc1 : c.length < XTSSectorSize)
    (hn : (XTSSectorSize : Int) * pre.length < n) :
    DecryptContent dec (pre ++ c :: rest) n = .error .ErrInvalidEmixFileContent :=
  decryptLoop_partial dec pre c rest n SectorNumberStart hpre hc0 hc1 hn

/-- Witness for C6: a lone 1-byte read with one logical byte expected. -/
theorem C6_witness :
    DecryptContent (fun s _ => s) ([] ++ [0] :: []) 1 = .error .ErrInvalidEmixFileContent :=
  C6_partial_sector_error (fun s _ => s) [] [0] [] 1 (by simp) (by decide)
    (by decide) (by decide)

/-- C4 counterexample: with logical size 8192 and a ciphertext stream that
ends after a single whole 4096-byte sector, DecryptContent returns success
(the first decrypted sector) instead of an error. -/
theorem C4_counterexample :
    DecryptContent (fun s _ => s) [List.replicate 4096 0] 8192
      = .ok (List.replicate 4096 0) := by
  have h1 : ¬((8192 : Int) ≤ 0) := by omega
  have hl : (List.replicate 4096 (0 : Nat)).length = XTSSectorSize := by
    rw [List.length_replicate]
    rfl
  have h2 : ¬(0 < (List.replicate 4096 (0 : Nat)).length ∧
      (List.replicate 4096 (0 : Nat)).length < XTSSectorSize) := by
    rw [hl]
    simp
  have hmin : (min (XTSSectorSize : Int) (8192 : Int)).toNat = 4096 := by
    simp only [XTSSectorSize]
    omega
  simp only [DecryptContent, decryptLoop]
  rw [if_neg h1, if_neg h2, if_pos hl]
  simp only [hmin, List.take_replicate, List.append_nil]
  norm_num

/-- C4 amended: if every read yields a whole 4096-byte sector and the stream
ends at a sector boundary before the logical size is reached, DecryptContent
nevertheless returns success, emitting exactly the 4096·k bytes read. -/
theorem C4_amended_eof_at_boundary (dec : List Nat → Nat → List Nat) :
    ∀ (chunks : List (List Nat)) (n : Int) (s : Nat),
      (∀ c ∈ chunks, c.length = XTSSectorSize) →
      (∀ c k, c.length = XTSSectorSize → (dec c k).length = XTSSectorSize) →
      (XTSSectorSize : Int) * chunks.length < n →
      ∃ out, decryptLoop dec chunks n s = .ok out ∧
        out.length = XTSSectorSize * chunks.length
  | [], n, s, _, _, hn => ⟨[], by simp [decryptLoop], by simp⟩
  | c :: rest, n, s, hfull, hdec, hn => by
    have hc : c.length = XTSSectorSize := hfull c (by simp)
    have hn' : (XTSSectorSize : Int) * rest.length < n - XTSSectorSize := by
      simp only [List.length_cons] at hn
      push_cast at hn ⊢
      simp only [XTSSectorSize] at hn ⊢
      omega
    have hn0 : ¬(n ≤ 0) := by
      have : (0 : Int) ≤ (XTSSectorSize : Int) * rest.length := by positivity
      simp only [XTSSectorSize] at hn' this ⊢
      omega
    have hnp : ¬(0 < c.length ∧ c.length < XTSSectorSize) := by
      rw [hc]
      simp
    have hminn : (min (XTSSectorSize : Int) n).toNat = XTSSectorSize := by
      have : (0 : Int) ≤ (XTSSectorSize : Int) * rest.length := by positivity
      simp only [XTSSectorSize] at hn' this ⊢
      omega
    obtain ⟨out, ho, hlen⟩ := C4_amended_eof_at_boundary dec rest (n - XTSSectorSize) (s + 1)
      (fun q hq => hfull q (by simp [hq])) hdec hn'
    refine ⟨(dec c s).take (min (XTSSectorSize : Int) n).toNat ++ out, ?_, ?_⟩
    · simp only [decryptLoop]
      rw [if_neg hn0, if_neg hnp, if_pos hc, ho]
    · have hdlen : (dec c s).length = XTSSectorSize := hdec c s hc
      simp only [List.length_append, List.length_take, hdlen, hminn, hlen,
        List.length_cons]
      ring_nf
      omega

/-- Witness for C4's amended claim: one whole sector against a logical size
of 8192 still yields success with 4096 bytes emitted. -/
theorem C4_amended_witness :
    ∃ out, decryptLoop (fun s _ => s) [List.replicate 4096 0] 8192 SectorNumberStart
      = .ok out ∧ out.length = XTSSectorSize * ([List.replicate 4096 (0 : Nat)]).length :=
  C4_amended_eof_at_boundary (fun s _ => s) [List.replicate 4096 0] 8192
    SectorNumberStart
    (by
      intro c hc
      simp only [List.mem_singleton] at hc
      rw [hc, List.length_replicate]
      rfl)
    (fun c k hck => hck)
    (by
      simp only [List.length_singleton]
      norm_num [XTSSectorSize])

/-- C2: for every plaintext (including the empty one) and any sector cipher
pair that is length-preserving and inverse per sector, encrypting the
`bytes.Reader` chunk stream and then decrypting with the logical size
reproduces the plaintext exactly; the ciphertext is ceil(n/4096) whole
4096-byte sectors, each transformed independently under sector numbers
starting at 1024 and incrementing by one. -/
theorem C2_content_roundtrip (enc dec : List Nat → Nat → List Nat) (data : List Nat)
    (Henc : ∀ p k, p.length = XTSSectorSize → (enc p k).length = XTSSectorSize)
    (Hdec : ∀ p k, p.length = XTSSectorSize → dec (enc p k) k = p) :
    DecryptContent dec (chunksOf (EncryptContent enc (chunksOf data))) (data.length)
      = .ok data ∧
    (EncryptContent enc (chunksOf data)).length
      = XTSSectorSize * ((data.length + 4095) / 4096) ∧
    EncryptContent enc (chunksOf data)
      = (encSectors enc (plainSectors (chunksOf data) (List.replicate XTSSectorSize 0))
          SectorNumberStart).flatten ∧
    (plainSectors (chunksOf data) (List.replicate XTSSectorSize 0)).length
      = (data.length + 4095) / 4096 ∧
    (∀ p ∈ plainSectors (chunksOf data) (List.replicate XTSSectorSize 0),
      p.length = XTSSectorSize) := by
  have hbuf : (List.replicate XTSSectorSize (0 : Nat)).length = XTSSectorSize :=
    List.length_replicate XTSSectorSize 0
  have hwf : wfChunks (chunksOf data) := wfChunks_chunksOf data
  have hmemle : ∀ c ∈ chunksOf data, c.length ≤ XTSSectorSize :=
    fun c hc => (wfChunks_mem _ hwf c hc).2
  have hmem0 : ∀ c ∈ chunksOf data, 0 < c.length :=
    fun c hc => (wfChunks_mem _ hwf c hc).1
  have hps : ∀ p ∈ plainSectors (chunksOf data) (List.replicate XTSSectorSize 0),
      p.length = XTSSectorSize :=
    plainSectors_length (chunksOf data) _ hbuf hmemle
  have hstruct : EncryptContent enc (chunksOf data)
      = (encSectors enc (plainSectors (chunksOf data) (List.replicate XTSSectorSize 0))
          SectorNumberStart).flatten :=
    encryptLoop_eq enc (chunksOf data) _ SectorNumberStart
  have hblocks : ∀ b ∈ encSectors enc
      (plainSectors (chunksOf data) (List.replicate XTSSectorSize 0)) SectorNumberStart,
      b.length = XTSSectorSize :=
    encSectors_mem_length enc Henc _ SectorNumberStart hps
  have hcount : (plainSectors (chunksOf data) (List.replicate XTSSectorSize 0)).length
      = (data.length + 4095) / 4096 := by
    rw [plainSectors_count (chunksOf data) _ hmem0, chunksOf_length]
  refine ⟨?_, ?_, hstruct, hcount, hps⟩
  · rw [DecryptContent, hstruct, chunksOf_flatten_blocks _ hblocks]
    have h := decryptLoop_encSectors enc dec Henc Hdec (chunksOf data) _
      SectorNumberStart hbuf hwf
    rw [totalLen_chunksOf, chunksOf_flatten] at h
    exact h
  · rw [hstruct, flatten_length_uniform _ XTSSectorSize hblocks, encSectors_count, hcount]

/-- Witness for C2 with the identity sector cipher on a 5000-byte input
(one full sector plus one partial sector). -/
theorem C2_witness :
    DecryptContent (fun p _ => p)
      (chunksOf (EncryptContent (fun p _ => p) (chunksOf (List.replicate 5000 7))))
      ((List.replicate 5000 (7 : Nat)).length) = .ok (List.replicate 5000 7) ∧
    (EncryptContent (fun p _ => p) (chunksOf (List.replicate 5000 7))).length
      = XTSSectorSize * (((List.replicate 5000 (7 : Nat)).length + 4095) / 4096) ∧
    EncryptContent (fun p _ => p) (chunksOf (List.replicate 5000 7))
      = (encSectors (fun p _ => p)
          (plainSectors (chunksOf (List.replicate 5000 7)) (List.replicate XTSSectorSize 0))
          SectorNumberStart).flatten ∧
    (plainSectors (chunksOf (List.replicate 5000 7)) (List.replicate XTSSectorSize 0)).length
      = ((List.replicate 5000 (7 : Nat)).length + 4095) / 4096 ∧
    (∀ p ∈ plainSectors (chunksOf (List.replicate 5000 7)) (List.replicate XTSSectorSize 0),
      p.length = XTSSectorSize) :=
  C2_content_roundtrip (fun p _ => p) (fun p _ => p) (List.replicate 5000 7)
    (fun p k h => h) (fun p k h => rfl)

/-- C1: for every valid ContainerHeader that is either unencrypted with an
all-zero password, or metadata-encrypted with an embedded password, encoding
succeeds, decoding the encoded bytes into a fresh header yields the original
header, and the encoded length equals EncodedLength (whose metadata
encryption surcharge is exactly 28 bytes). -/
theorem C1_header_roundtrip (C : CryptoPrim) (random nonce : List Nat) (e : EmixHeader)
    (hrand : random.length = 16) (hpw : e.Password.length = 16)
    (hnonce : nonce.length = C.gcmNonceSize) (hnsz : C.gcmNonceSize = 12)
    (hsha : ∀ bs : List Nat, (C.sha256 bs).length = 32)
    (hopen : ∀ k nn p, C.gcmOpen k nn (C.gcmSeal k nn p) = some p)
    (hseallen : ∀ k nn p, (C.gcmSeal k nn p).length = p.length + 16)
    (hname1 : 1 ≤ e.FileInfo.Name.length) (hname2 : e.FileInfo.Name.length ≤ 255)
    (hsz : e.FileInfo.Size < 2 ^ 64) (hmd : e.FileInfo.Mode < 2 ^ 32)
    (hct : e.FileInfo.CreateTime < 2 ^ 64) (hmt : e.FileInfo.ModifyTime < 2 ^ 64)
    (hhash : e.FileInfo.FileContentHash.length = 32)
    (hvariant : (e.EncryptInfo = false ∧ e.Password = List.replicate 16 0) ∨
                (e.EncryptInfo = true ∧ e.EmbedPassword = true)) :
    EmixHeader.MarshalBinary C random nonce e = .ok (headerBytes C random nonce e) ∧
    EmixHeader.UnmarshalBinary C emptyEmixHeader (headerBytes C random nonce e) = .ok e ∧
    (headerBytes C random nonce e).length = e.EncodedLength := by
  have hmar := marshalBinary_eq C random nonce e
    (by simp only [fileNameMinLength]; omega) (by simp only [fileNameMaxLength]; omega)
  have hfb : (fileInfoBytes e.FileInfo).length = 62 + e.FileInfo.Name.length :=
    length_fileInfoBytes _ hhash
  have hfiL : (headerFiBytes C nonce e).length
      = 62 + e.FileInfo.Name.length + (if e.EncryptInfo then 28 else 0) := by
    cases hEI : e.EncryptInfo
    · simp [headerFiBytes, hEI, hfb]
    · have hx : headerFiBytes C nonce e
          = AESGCMEncrypt C nonce (fileInfoBytes e.FileInfo) e.Password := by
        simp [headerFiBytes, hEI]
      rw [hx]
      simp only [AESGCMEncrypt, List.length_append, hseallen, hnonce, hnsz, hfb, if_true]
      omega
  have hpwf : (headerPwField e).length = 16 := by
    unfold headerPwField
    cases hEP : e.EmbedPassword
    · simp
    · simp [hpw]
  have hL1 : 63 ≤ (headerFiBytes C nonce e).length := by
    rw [hfiL]
    cases e.EncryptInfo <;> simp <;> omega
  have hL2 : (headerFiBytes C nonce e).length ≤ 345 := by
    rw [hfiL]
    cases e.EncryptInfo <;> simp <;> omega
  have hshape : headerBytes C random nonce e =
      emixHeaderMagic ++ random ++ [(if e.EmbedPassword then 1 else 0),
        ((if e.EncryptInfo then 1 else 0) ||| (if e.EncryptData then 2 else 0))] ++
        headerPwField e ++ uint16BE (headerFiBytes C nonce e).length ++
        headerFiBytes C nonce e ++
        C.sha256 (emixHeaderMagic ++ random ++ [(if e.EmbedPassword then 1 else 0),
          ((if e.EncryptInfo then 1 else 0) ||| (if e.EncryptData then 2 else 0))] ++
          headerPwField e ++ uint16BE (headerFiBytes C nonce e).length ++
          headerFiBytes C nonce e) := by
    simp only [headerBytes, headerBody, headerMixType, List.append_assoc]
  have hbytes_len : (headerBytes C random nonce e).length
      = 72 + (headerFiBytes C nonce e).length := by
    rw [headerBytes, List.length_append,
      length_headerBody C random nonce e hrand hpwf, hsha]
    omega
  have hfiunm : FileInfo.UnmarshalBinary (fileInfoBytes e.FileInfo) = .ok e.FileInfo :=
    fileInfo_unmarshal_fileInfoBytes e.FileInfo
      (by simp only [fileNameMinLength]; omega) (by simp only [fileNameMaxLength]; omega)
      hsz hmd hct hmt hhash
  refine ⟨hmar, ?_, ?_⟩
  · have hparse := unmarshal_wellformed C emptyEmixHeader random (headerPwField e)
      (headerFiBytes C nonce e) (if e.EmbedPassword then 1 else 0)
      ((if e.EncryptInfo then 1 else 0) ||| (if e.EncryptData then 2 else 0))
      hrand hpwf hL1 hL2 hsha
    have hminlen : ¬((headerBytes C random nonce e).length < emixHeaderMinLength) := by
      rw [hbytes_len]
      simp only [emixHeaderMinLength, fileInfoEncodedMinLength, fileNameMinLength]
      omega
    rw [EmixHeader.UnmarshalBinary, if_neg hminlen, hshape, hparse,
      mixbit_encInfo, mixbit_encData, mixbit_embed]
    have hpassword : (if e.EmbedPassword then headerPwField e
        else emptyEmixHeader.Password) = e.Password := by
      rcases hvariant with ⟨_, hpz⟩ | ⟨_, hEP⟩
      · cases hEP : e.EmbedPassword
        · simp [emptyEmixHeader, hpz]
        · simp [headerPwField, hEP]
      · rw [hEP]
        simp [headerPwField, hEP]
    rw [hpassword]
    have hstep : (if e.EncryptInfo then
        match AESGCMDecrypt C (headerFiBytes C nonce e) e.Password with
        | .error err => GoResult.err err
        | .ok d => GoResult.ok d
      else .ok (headerFiBytes C nonce e)) = .ok (fileInfoBytes e.FileInfo) := by
      rcases hvariant with ⟨hEI, _⟩ | ⟨hEI, _⟩
      · rw [hEI]
        simp [headerFiBytes, hEI]
      · rw [hEI]
        have hcond : true = true := rfl
        rw [if_pos hcond]
        have : headerFiBytes C nonce e
            = AESGCMEncrypt C nonce (fileInfoBytes e.FileInfo) e.Password := by
          simp [headerFiBytes, hEI]
        rw [this, aesgcm_roundtrip C nonce _ _ hnonce hopen]
    rw [hstep, GoResult.bind_ok, hfiunm, GoResult.bind_ok]
  · rw [hbytes_len, hfiL]
    simp only [EmixHeader.EncodedLength, FileInfo.EncodedLength,
      fileInfoEncodedMinLength, fileNameMinLength]
    cases e.EncryptInfo <;> simp <;> omega

/-- Witness for C1 at a concrete metadata-encrypted embedded-password
header under the concrete crypto primitives. -/
theorem C1_witness :
    EmixHeader.MarshalBinary trivCrypto (List.replicate 16 0) (List.replicate 12 0)
      c1DemoHeader
      = .ok (headerBytes trivCrypto (List.replicate 16 0) (List.replicate 12 0)
          c1DemoHeader) ∧
    EmixHeader.UnmarshalBinary trivCrypto emptyEmixHeader
      (headerBytes trivCrypto (List.replicate 16 0) (List.replicate 12 0) c1DemoHeader)
      = .ok c1DemoHeader ∧
    (headerBytes trivCrypto (List.replicate 16 0) (List.replicate 12 0)
      c1DemoHeader).length = c1DemoHeader.EncodedLength :=
  C1_header_roundtrip trivCrypto (List.replicate 16 0) (List.replicate 12 0) c1DemoHeader
    (by decide) (by decide) (by decide) rfl
    (fun bs => by simp [trivCrypto])
    (fun k nn p => by simp [trivCrypto])
    (fun k nn p => by simp [trivCrypto])
    (by decide) (by decide) (by decide) (by decide) (by decide) (by decide) (by decide)
    (Or.inr ⟨rfl, rfl⟩)

/-- Helper: any successful header parse has its embed-password flag and
password taken from the parsed bytes (or the receiver), and its trailing
32-byte hash field equal to the hash of all preceding header bytes. -/
theorem unmarshal_ok_shape (C : CryptoPrim) (e₀ h : EmixHeader) (input : List Nat)
    (hok : EmixHeader.UnmarshalBinaryFromReader C e₀ input = .ok h) :
    h.EmbedPassword
      = decide (0 < (((input.take emixHeaderMaxLength).drop 20).take 2).getD 0 0 &&& 1) ∧
    h.Password
      = (if decide (0 < (((input.take emixHeaderMaxLength).drop 20).take 2).getD 0 0 &&& 1)
          then ((input.take emixHeaderMaxLength).drop 22).take 16 else e₀.Password) ∧
    ((input.take emixHeaderMaxLength).drop
        (40 + beVal (((input.take emixHeaderMaxLength).drop 38).take 2))).take 32
      = C.sha256 ((input.take emixHeaderMaxLength).take
          (40 + beVal (((input.take emixHeaderMaxLength).drop 38).take 2))) := by
  simp only [EmixHeader.UnmarshalBinaryFromReader] at hok
  by_cases h1 : min input.length emixHeaderMaxLength < emixHeaderMinLength
  · rw [if_pos h1] at hok
    exact absurd hok (by simp)
  rw [if_neg h1] at hok
  by_cases h2 : (input.take emixHeaderMaxLength).take 4 ≠ emixHeaderMagic
  · rw [if_pos h2] at hok
    exact absurd hok (by simp)
  rw [if_neg h2] at hok
  by_cases h3 : (input.take emixHeaderMaxLength).length
      < 40 + beVal (((input.take emixHeaderMaxLength).drop 38).take 2) + 32
  · rw [if_pos h3] at hok
    exact absurd hok (by simp)
  rw [if_neg h3] at hok
  revert hok
  cases hD : (if decide (0 < (((input.take emixHeaderMaxLength).drop 20).take 2).getD 1 0 &&& 1)
      then
        match AESGCMDecrypt C (((input.take emixHeaderMaxLength).drop 40).take
            (beVal (((input.take emixHeaderMaxLength).drop 38).take 2)))
          (if decide (0 < (((input.take emixHeaderMaxLength).drop 20).take 2).getD 0 0 &&& 1)
            then ((input.take emixHeaderMaxLength).drop 22).take 16 else e₀.Password) with
        | .error err => GoResult.err err
        | .ok d => GoResult.ok d
      else .ok (((input.take emixHeaderMaxLength).drop 40).take
          (beVal (((input.take emixHeaderMaxLength).drop 38).take 2)))) with
  | err err => intro hok; exact absurd hok (by simp)
  | outOfRange => intro hok; exact absurd hok (by simp)
  | ok fib =>
    rw [GoResult.bind_ok]
    cases hU : FileInfo.UnmarshalBinary fib with
    | err err => intro hok; exact absurd hok (by simp)
    | outOfRange => intro hok; exact absurd hok (by simp)
    | ok fi2 =>
      rw [GoResult.bind_ok]
      by_cases h4 : ((input.take emixHeaderMaxLength).drop
          (40 + beVal (((input.take emixHeaderMaxLength).drop 38).take 2))).take 32
          ≠ C.sha256 ((input.take emixHeaderMaxLength).take
            (40 + beVal (((input.take emixHeaderMaxLength).drop 38).take 2)))
      · rw [if_pos h4]
        intro hok
        exact absurd hok (by simp)
      · rw [if_neg h4]
        intro hok
        injection hok with hrec
        refine ⟨?_, ?_, not_ne_iff.mp h4⟩
        · rw [← hrec]
        · rw [← hrec]

/-- Helper: a byte string of the form body ‖ hash(body) has its last 32
bytes equal to the hash of the rest. -/
theorem append_hash_tail (C : CryptoPrim) (hsha : ∀ x : List Nat, (C.sha256 x).length = 32)
    (B : List Nat) :
    (B ++ C.sha256 B).drop ((B ++ C.sha256 B).length - 32)
      = C.sha256 ((B ++ C.sha256 B).take ((B ++ C.sha256 B).length - 32)) := by
  have hl : (B ++ C.sha256 B).length - 32 = B.length := by
    simp [hsha B]
  rw [hl, List.drop_left, List.take_left]

/-- C3: every header byte string produced by MarshalBinary ends with a
32-byte field equal to the hash of all preceding bytes, and header decoding
never succeeds on an input whose trailing 32-byte field differs from the
hash of the preceding header bytes. -/
theorem C3_hash_invariant (C : CryptoPrim) :
    (∀ (random nonce : List Nat) (e : EmixHeader) (bs : List Nat),
      (∀ x : List Nat, (C.sha256 x).length = 32) →
      EmixHeader.MarshalBinary C random nonce e = .ok bs →
      bs.drop (bs.length - 32) = C.sha256 (bs.take (bs.length - 32))) ∧
    (∀ (e₀ h : EmixHeader) (input : List Nat),
      EmixHeader.UnmarshalBinaryFromReader C e₀ input = .ok h →
      ((input.take emixHeaderMaxLength).drop
          (40 + beVal (((input.take emixHeaderMaxLength).drop 38).take 2))).take 32
        = C.sha256 ((input.take emixHeaderMaxLength).take
            (40 + beVal (((input.take emixHeaderMaxLength).drop 38).take 2)))) := by
  constructor
  · intro random nonce e bs hsha hok
    rw [EmixHeader.MarshalBinary] at hok
    revert hok
    cases hfi : e.FileInfo.MarshalBinary with
    | error err => intro hok; exact absurd hok (by simp)
    | ok enc0 =>
      intro hok
      dsimp only at hok
      injection hok with hbs
      subst hbs
      exact append_hash_tail C hsha _
  · intro e₀ h input hok
    exact (unmarshal_ok_shape C e₀ h input hok).2.2

set_option maxRecDepth 40000 in
/-- Witness for C3: the trailing-hash identity on a concrete encoded header
and on a concrete successful parse. -/
theorem C3_witness :
    (headerBytes trivCrypto (List.replicate 16 0) (List.replicate 12 0) demoParsed).drop
      ((headerBytes trivCrypto (List.replicate 16 0) (List.replicate 12 0)
        demoParsed).length - 32)
      = trivCrypto.sha256 ((headerBytes trivCrypto (List.replicate 16 0)
          (List.replicate 12 0) demoParsed).take
          ((headerBytes trivCrypto (List.replicate 16 0) (List.replicate 12 0)
            demoParsed).length - 32)) ∧
    ((demoInput.take emixHeaderMaxLength).drop
        (40 + beVal (((demoInput.take emixHeaderMaxLength).drop 38).take 2))).take 32
      = trivCrypto.sha256 ((demoInput.take emixHeaderMaxLength).take
          (40 + beVal (((demoInput.take emixHeaderMaxLength).drop 38).take 2))) :=
  ⟨(C3_hash_invariant trivCrypto).1 (List.replicate 16 0) (List.replicate 12 0) demoParsed
      (headerBytes trivCrypto (List.replicate 16 0) (List.replicate 12 0) demoParsed)
      (fun x => by simp [trivCrypto])
      (marshalBinary_eq trivCrypto (List.replicate 16 0) (List.replicate 12 0) demoParsed
        (by decide) (by decide)),
   (C3_hash_invariant trivCrypto).2 emptyEmixHeader demoParsed demoInput (by decide)⟩

/-- C10: when the embed-password bit of the parsed mix-type bytes is clear,
a successful header parse leaves the result's Password equal to the
receiver's pre-loaded Password — the wire's zero-filled field is never
copied over it. -/
theorem C10_password_frame (C : CryptoPrim) (e₀ h : EmixHeader) (input : List Nat)
    (hbit : (((input.take emixHeaderMaxLength).drop 20).take 2).getD 0 0 &&& 1 = 0)
    (hok : EmixHeader.UnmarshalBinaryFromReader C e₀ input = .ok h) :
    h.Password = e₀.Password := by
  obtain ⟨-, hpwd, -⟩ := unmarshal_ok_shape C e₀ h input hok
  rw [hpwd, hbit]
  simp

set_option maxRecDepth 40000 in
/-- Witness for C10: parsing a concrete unencrypted header into a receiver
leaves the receiver's password in the result. -/
theorem C10_witness : demoParsed.Password = emptyEmixHeader.Password :=
  C10_password_frame trivCrypto emptyEmixHeader demoParsed demoInput (by decide) (by decide)

end Emix
